import Mathlib

/-!
# Verification of the telekinesis client core

Shallow embedding of `telekinesis/client.py` (classes `Connection`, `Session`,
`Channel`, `Route`) and proofs about the embedded operations.

Conventions used throughout:
* bytes are natural numbers `0..255`; byte strings are `List Nat`;
* Python `dict`s / `OrderedDict`s are insertion-ordered association lists;
* Python sets are lists with membership (only membership, insertion and
  clearing are used by the source);
* opaque identifiers (session serials, channel serials, token signatures,
  lock/event object identities) are modelled as `Nat` where the source only
  compares them for equality.
-/

namespace Telekinesis

/-- Byte strings (signatures, payloads, message ids, bundle ids). -/
abbrev Bytes := List Nat

/-! ## Session.check_no_repeat (client.py lines 216, 219-230)

`Session.__init__` sets `self.seen_messages = (set(), set(), 0)`.  The third
component of this *tuple* is never reassigned anywhere in the source (tuples
are immutable; only the contained sets are mutated in place), so it stays `0`
forever.  `check_no_repeat` mutates the two sets in place and returns a Bool;
we model it as a state-passing function. -/

/-- State of `Session.seen_messages`: two signature buckets plus the third
tuple component (initialised to `0` and never reassigned in the source). -/
structure SeenMessages where
  bucket0 : List Bytes
  bucket1 : List Bytes
  third : Nat
deriving Repr, DecidableEq

/-- Initial value `(set(), set(), 0)` from `Session.__init__`. -/
def SeenMessages.init : SeenMessages := ⟨[], [], 0⟩

/-- `self.seen_messages[lead]` as a list. -/
def SeenMessages.bucket (st : SeenMessages) (lead : Nat) : List Bytes :=
  if lead = 0 then st.bucket0 else st.bucket1

/-- `self.seen_messages[lead].clear()`. -/
def SeenMessages.clearBucket (st : SeenMessages) (lead : Nat) : SeenMessages :=
  if lead = 0 then { st with bucket0 := [] } else { st with bucket1 := [] }

/-- `self.seen_messages[lead].add(signature)`. -/
def SeenMessages.addBucket (st : SeenMessages) (lead : Nat) (signature : Bytes) :
    SeenMessages :=
  if lead = 0 then { st with bucket0 := signature :: st.bucket0 }
  else { st with bucket1 := signature :: st.bucket1 }

/-- `Session.check_no_repeat(signature, timestamp)` evaluated at wall-clock
second `now` (`now = int(time.time())`).  Returns the accept flag and the
updated `seen_messages` state.  Direct transcription of lines 219-230:
`lead = now//60%2`; if `seen_messages[2] != lead` clear bucket `lead`;
accept iff `now-60 <= timestamp <= now` and the signature is in neither
bucket, inserting it into bucket `lead` on accept.  The timestamp is an
`Int` because `timestamp + self.t_offset` can be negative. -/
def check_no_repeat (st : SeenMessages) (signature : Bytes) (timestamp : Int)
    (now : Nat) : Bool × SeenMessages :=
  let lead := now / 60 % 2
  let st1 := if st.third ≠ lead then st.clearBucket lead else st
  if (now : Int) - 60 ≤ timestamp ∧ timestamp ≤ (now : Int) then
    if signature ∉ st1.bucket0 ++ st1.bucket1 then
      (true, st1.addBucket lead signature)
    else (false, st1)
  else (false, st1)

/-! ## Connection.send / Connection.recv framing (client.py lines 86-125, 165-197)

`encode` (line 91) builds the payload region of a frame as
`r + payload` with `r = retry.to_bytes(1,'big') + (message_id or b'')`.
The first transmission of an original message uses `retry = 0` and
`message_id = None` (line 99).  After an ack timeout in iteration `retry`
of the loop at line 109, the frame is re-encoded at line 122 with
`encode(header, payload, bundle_id, message_id, retry)` where `message_id`
is the *original* signature — so the frame transmitted on attempt `k ≥ 1`
carries retry byte `k - 1` and the original signature prefix. -/

/-- Payload region `r + payload` built by `encode` (line 91-94):
one retry byte, then the optional message id, then the payload.
The retry byte values occurring in the source are 0, 1, 2 and 255, all
below 256, so `to_bytes(1,'big')` is exact. -/
def encodeRegion (retry : Nat) (message_id payload : Bytes) : Bytes :=
  retry :: (message_id ++ payload)

/-- `self.MAX_SEND_RETRIES = 3` (line 21). -/
def MAX_SEND_RETRIES : Nat := 3

/-- Payload regions of the frames transmitted on attempts 0, 1, 2 of
`Connection.send` for an original message whose every ack wait times out:
attempt 0 transmits the region encoded at line 99 (`retry = 0`, no message
id); the re-encoding at line 122 at the end of attempt `k < MAX_SEND_RETRIES - 1`
uses `retry = k` and `message_id = s` (the original signature), and that
frame is transmitted on attempt `k + 1`. -/
def sendAttemptRegions (origSig payload : Bytes) : List Bytes :=
  [encodeRegion 0 [] payload,
   encodeRegion 0 origSig payload,
   encodeRegion 1 origSig payload]

/-- What `Connection.recv` (lines 189-197) does with a `send` frame addressed
to a local channel, as a function of the frame's own signature and its
payload region `full_payload`. -/
inductive RecvAction where
  /-- `full_payload[0] == 255`: the frame is an ack; deliver
  `full_payload[1:65]` to `Connection.ack`. -/
  | ackDispatch (ack_message_id : Bytes)
  /-- otherwise: send back an ack carrying `ret_signature` and hand
  `payload` to `Channel.handle_message`. -/
  | ackBack (ret_signature : Bytes) (payload : Bytes)
deriving Repr, DecidableEq

/-- Lines 189-197: `ret_signature = signature if full_payload[0] == 0 else
full_payload[1:65]`, `payload = full_payload[1:] if full_payload[0] == 0
else full_payload[65:]`.  `full_payload` always starts with the retry byte,
so the empty case is unreachable (modelled as a junk value). -/
def recvDispatch (signature : Bytes) : Bytes → RecvAction
  | [] => .ackBack [] []
  | 255 :: rest => .ackDispatch (rest.take 64)
  | 0 :: rest => .ackBack signature rest
  | b :: rest => .ackBack (rest.take 64) ((b :: rest).drop 65)

/-! ## Connection.awaiting_ack, Connection.clear, Connection.ack
(client.py lines 31, 107, 141-145, 199-208)

`awaiting_ack` is an `OrderedDict` mapping a message id (the original frame
signature) to the tuple `(header, bundle_id, lock)` inserted at line 107.
A header is a list of `(action, content)` pairs; `Connection.ack` only looks
at `action == 'send'` and `content['destination']['session']`, so header
items are modelled as that projection. -/

/-- One `(action, content)` pair of a header, projected to what
`Connection.ack` reads from it. -/
inductive HAction where
  /-- a `('send', {...})` pair with `content['destination']['session']`. -/
  | send (destSession : Nat)
  /-- any pair whose action is not `'send'` (`listen`, `token`, `close`). -/
  | other
deriving Repr, DecidableEq

/-- The tuple `(header, bundle_id, lock)` stored in `awaiting_ack`
(line 107).  The lock is an `asyncio.Event`; the source only calls `.set()`
on it and compares it (buggily) with `==`, so it is modelled by an opaque
identity. -/
structure AckEntry where
  header : List HAction
  bundle : Option Bytes
  lock : Nat
deriving Repr, DecidableEq

/-- `Connection.awaiting_ack`: an insertion-ordered map from message id to
entry. -/
abbrev AwaitMap := List (Bytes × AckEntry)

/-- `m.get(k)` on an insertion-ordered dict. -/
def dictLookup (m : AwaitMap) (k : Bytes) : Option AckEntry :=
  match m with
  | [] => none
  | (k', e) :: rest => if k' = k then some e else dictLookup rest k

/-- Removal of key `k` (what `m.pop(k)` leaves behind); order of the
remaining entries is preserved. -/
def dictErase (m : AwaitMap) (k : Bytes) : AwaitMap :=
  match m with
  | [] => []
  | (k', e) :: rest => if k' = k then rest else (k', e) :: dictErase rest k

/-- `m.pop(k)`: the removed entry and the remaining map, or `none` when the
key is absent (Python raises `KeyError`). -/
def dictPop (m : AwaitMap) (k : Bytes) : Option (AckEntry × AwaitMap) :=
  match dictLookup m k with
  | none => none
  | some e => some (e, dictErase m k)

/-- Python `==` between the stored lock (`v[2]`, an `asyncio.Event`) and the
`bundle_id` argument (4 bytes from `os.urandom(4)`, or a string):
objects of unrelated types with default equality always compare unequal. -/
def eventEqBytes (lock : Nat) (b : Bytes) : Bool := false

/-- `Connection.clear(bundle_id)` (lines 141-145).  `if bundle_id:` is
falsy exactly for `None` (bundle ids in the source are 4 random bytes,
never empty).  The loop pops every entry whose `v[2]` — the *lock*, not the
stored bundle id `v[1]` — equals `bundle_id`.  Since that comparison is
between an `Event` and bytes it never holds, so no entry is ever popped
(and the `RuntimeError` from mutating a dict during iteration is likewise
never reached). -/
def clear (m : AwaitMap) (bundle_id : Option Bytes) : AwaitMap :=
  match bundle_id with
  | none => m
  | some b => m.filter (fun kv => !eventEqBytes kv.2.lock b)

/-- The loop of `Connection.ack` (lines 202-208) over the header items of
the entry found for `message_id`, threading the map and accumulating the
identities of the locks that get `.set()`.  On a matching `send` item the
entry is popped (`none` = `KeyError` when already gone), its lock is
released and, if the map is nonempty afterwards, the lock of the new first
entry is released too.  The loop then continues with the remaining items. -/
def ackLoop (src : Nat) (message_id : Bytes) :
    List HAction → AwaitMap → List Nat → Option (AwaitMap × List Nat)
  | [], m, rel => some (m, rel)
  | .other :: rest, m, rel => ackLoop src message_id rest m rel
  | .send dest :: rest, m, rel =>
    if dest = src then
      match dictPop m message_id with
      | none => none
      | some (e, m') =>
        let rel' := rel ++ [e.lock]
        let rel'' := match m' with
          | [] => rel'
          | (_, e0) :: _ => rel' ++ [e0.lock]
        ackLoop src message_id rest m' rel''
    else ackLoop src message_id rest m rel

/-- `Connection.ack(source_id, message_id)` (lines 199-208):
`header = awaiting_ack.get(message_id, [[]])[0]` (so an absent id yields an
empty header and the loop is a no-op), then the loop above.  Returns the
final map together with the released lock identities, or `none` on
`KeyError`. -/
def ack (m : AwaitMap) (source_id : Nat) (message_id : Bytes) :
    Option (AwaitMap × List Nat) :=
  let header := (dictLookup m message_id).elim [] AckEntry.header
  ackLoop source_id message_id header m []

end Telekinesis

namespace Telekinesis

/-! ## Claim C1: replay rejection -/

/-- Concrete run exhibiting the `seen_messages` slip: signature `[3]` with
timestamp 60, first call at `now = 60`, second call at `now = 61` (both in
the same odd minute, `lead = 1`). -/
def c1State1 : Bool × SeenMessages := check_no_repeat SeenMessages.init [3] 60 60

/-- Claim C1, failing run: the first call at `now = 60` accepts signature
`[3]`, and the second call one second later — well within 60 seconds —
accepts it *again*, because `seen_messages[2]` is a tuple component stuck at
`0`, so during odd minutes (`lead = 1`) every call first clears bucket 1 and
with it the signature recorded by the previous call.  The claim (and spec
§8.1) requires the second call to return `False`. -/
theorem c1_replay_accepted_twice :
    c1State1.1 = true ∧ (check_no_repeat c1State1.2 [3] 60 61).1 = true := by
  decide

/-! ## Claim C2: resend ack identity -/

/-- Original signature of the in-flight message (64 bytes). -/
def c2OrigSig : Bytes := List.replicate 64 1

/-- Fresh signature of the first retransmission (64 bytes, distinct). -/
def c2FreshSig : Bytes := List.replicate 64 2

/-- Claim C2, failing run: the frame transmitted on attempt 1 (the first
retransmission, re-encoded at line 122 with `retry = 0`) has payload region
`0 :: origSig ++ payload`.  Its leading 64 payload-prefix bytes *are* the
original signature, but because its retry byte is 0 the receiver (line 192)
classifies it as an original and acknowledges it with the retransmission's
own fresh signature — not with `full_payload[1:65]` as the claim requires —
and hands the 64 signature bytes to the channel as payload. -/
theorem c2_first_resend_acked_by_fresh_signature :
    (sendAttemptRegions c2OrigSig [7]).get? 1 = some (0 :: (c2OrigSig ++ [7])) ∧
    ((0 :: (c2OrigSig ++ [7])).drop 1).take 64 = c2OrigSig ∧
    recvDispatch c2FreshSig (0 :: (c2OrigSig ++ [7])) =
      .ackBack c2FreshSig (c2OrigSig ++ [7]) ∧
    c2FreshSig ≠ c2OrigSig := by
  decide

/-! ## Claim C3: bundle purge -/

/-- An awaiting-ack map holding one entry whose stored bundle id is
`[1,2,3,4]`. -/
def c3Map : AwaitMap :=
  [([9], { header := [.send 5], bundle := some [1,2,3,4], lock := 0 })]

/-- Claim C3, failing run: `clear([1,2,3,4])` leaves the map unchanged even
though its single entry's stored bundle id is exactly `[1,2,3,4]`, because
the source compares `v[2]` (the slot lock) instead of `v[1]` (the stored
bundle id) against `bundle_id` — a comparison that never holds.  The claim
(and spec §9's stated intent) requires the entry to be removed. -/
theorem c3_clear_removes_nothing :
    clear c3Map (some [1,2,3,4]) = c3Map ∧
    (dictLookup c3Map [9]).map AckEntry.bundle = some (some [1,2,3,4]) := by
  decide

/-! ## Tokens and Channel.validate_token_chain (client.py lines 411-440)

`Token` lives in `telekinesis/cryptography.py`, which is not part of the
sources; its shape is modelled from the spec (§3): issuer, receiver, asset
(channel id or previous token signature — both opaque identifiers here),
optional `max_depth`, and a signature under the issuer key.
`Token.decode` verifies the self-signature and raises `InvalidSignature` on
failure (the only exception caught at line 422-425), so an *encoded* token
is modelled by its decoding outcome: `none` means the signature does not
verify. -/

/-- Modelled from the spec: `Token` of `telekinesis/cryptography.py`
(not under src/), fields per spec §3.  The `brokers` field and the
root/extension kind tag are never read by `validate_token_chain` and are
omitted.  `max_depth` is `None` or an integer. -/
structure Token where
  issuer : Nat
  receiver : Nat
  asset : Nat
  max_depth : Option Nat
  signature : Nat
deriving Repr, DecidableEq

/-- An encoded token, modelled by its `Token.decode` outcome (`none` =
`InvalidSignature`). -/
abbrev EncToken := Option Token

/-- The parts of `Session` and `Channel` that `validate_token_chain` reads:
`self.is_public`, `self.channel_key.public_serial()`,
`self.session.session_key.public_serial()` and the key set of
`self.session.issued_tokens`. -/
structure ChannelV where
  is_public : Bool
  channel_serial : Nat
  session_serial : Nat
  issued_tokens : List Nat
deriving Repr, DecidableEq

/-- `Session.revoke_token(token_id)` (lines 249-251): `issued_tokens.pop(token_id)`
removes the entry with that signature from the ledger (dict keys are unique;
removal of every occurrence models this on a list of keys). -/
def revoke_token (issued : List Nat) (token_id : Nat) : List Nat :=
  issued.filter (fun s => s ≠ token_id)

/-- Python truthiness of the `max_depth` values flowing through the loop:
`None` and `0` are falsy. -/
def pyFalsy : Option Nat → Bool
  | none => true
  | some m => m == 0

/-- Lines 430-432 of the loop body: `if token.max_depth:` (truthy) updates
`max_depth` to `token.max_depth + depth` when `not max_depth or
(token.max_depth + depth) < max_depth`, else leaves it. -/
def mdUpdate (token_max_depth max_depth : Option Nat) (depth : Nat) : Option Nat :=
  if pyFalsy token_max_depth = false then
    if pyFalsy max_depth = true ∨ token_max_depth.getD 0 + depth < max_depth.getD 0 then
      some (token_max_depth.getD 0 + depth)
    else max_depth
  else max_depth

/-- The `for depth, token_string in enumerate(tokens)` loop of
`validate_token_chain` (lines 421-440), with the loop state `asset`,
`last_receiver`, `max_depth`, `depth` passed explicitly.  Direct
transcription: a decode failure or a mismatch of asset/issuer returns
`False`; an owner-issued token absent from `issued_tokens` returns `False`;
the reassigned `max_depth` is `mdUpdate token.max_depth max_depth depth`;
then `if not max_depth or depth <= max_depth` the state advances and the
chain is accepted as soon as the new `last_receiver` equals `source_id`;
otherwise the loop falls through to `return False`.  Exhausting the list
returns `False`. -/
def validateLoop (ch : ChannelV) (source_id : Nat) :
    List EncToken → Nat → Nat → Option Nat → Nat → Bool
  | [], _, _, _, _ => false
  | none :: _, _, _, _, _ => false
  | some token :: rest, asset, last_receiver, max_depth, depth =>
    if token.asset = asset ∧ token.issuer = last_receiver then
      if token.issuer = ch.session_serial ∧ token.signature ∉ ch.issued_tokens then
        false
      else
        if pyFalsy (mdUpdate token.max_depth max_depth depth) = true ∨
            depth ≤ (mdUpdate token.max_depth max_depth depth).getD 0 then
          if token.receiver = source_id then true
          else validateLoop ch source_id rest token.signature token.receiver
            (mdUpdate token.max_depth max_depth depth) (depth + 1)
        else false
    else false

/-- `Channel.validate_token_chain(source_id, tokens)` (lines 411-440):
accept immediately on a public channel or when the source is the owning
session; reject an empty token list; otherwise run the loop starting from
`asset = channel_key.public_serial()`,
`last_receiver = session_key.public_serial()`, `max_depth = None`,
`depth = 0`. -/
def validate_token_chain (ch : ChannelV) (source_id : Nat)
    (tokens : List EncToken) : Bool :=
  if ch.is_public = true ∨ source_id = ch.session_serial then true
  else if tokens.isEmpty then false
  else validateLoop ch source_id tokens ch.channel_serial ch.session_serial none 0

/-! ### Specification-side acceptance predicate (spec §4.8)

The spec describes acceptance of a chain `[t₀, …, t_k]` by per-index
conditions; we formalise it positionally: `tokenAt`, the asset and
last-receiver entering index `d`, the accumulated depth bound as the
minimum of the bounds declared by tokens up to `d`, a per-index check
`stepOk`, and acceptance as the existence of an index `d` whose every
prefix index passes the check and whose token's receiver is `source_id`. -/

/-- Decoded token at index `i`, when present and valid. -/
def tokenAt (toks : List EncToken) (i : Nat) : Option Token :=
  toks[i]?.bind id

/-- The `asset` value entering iteration `d`: the channel serial at index 0,
the previous token's signature afterwards. -/
def assetBefore (ch : ChannelV) (toks : List EncToken) : Nat → Nat
  | 0 => ch.channel_serial
  | d + 1 => ((tokenAt toks d).map Token.signature).getD 0

/-- The `last_receiver` value entering iteration `d`: the owning session
serial at index 0, the previous token's receiver afterwards. -/
def recvBefore (ch : ChannelV) (toks : List EncToken) : Nat → Nat
  | 0 => ch.session_serial
  | d + 1 => ((tokenAt toks d).map Token.receiver).getD 0

/-- The depth bound declared by the token at index `i`, as used by the
loop: a truthy `max_depth = m` declares the bound `i + m`; `None` or `0`
declares none. -/
def declaredBound (toks : List EncToken) (i : Nat) : Option Nat :=
  match tokenAt toks i with
  | some t =>
    match t.max_depth with
    | some m => if m = 0 then none else some (i + m)
    | none => none
  | none => none

/-- Minimum of a list of naturals, `none` on the empty list. -/
def listMin : List Nat → Option Nat
  | [] => none
  | a :: l => some ((listMin l).elim a (min a))

/-- The accumulated depth bound entering iteration `d`: the minimum of the
bounds declared by tokens at indices `< d`. -/
def boundBefore (toks : List EncToken) (d : Nat) : Option Nat :=
  listMin ((List.range d).filterMap (declaredBound toks))

/-- Spec §4.8, the conditions checked at chain index `d`: the token decodes
with a valid signature, its asset and issuer match the running state, an
owner-issued token is present in the owner's ledger, and `d` does not
exceed the accumulated depth bound (which includes the token's own
declaration). -/
def stepOk (ch : ChannelV) (toks : List EncToken) (d : Nat) : Prop :=
  ∃ t, tokenAt toks d = some t ∧
    t.asset = assetBefore ch toks d ∧
    t.issuer = recvBefore ch toks d ∧
    (t.issuer = ch.session_serial → t.signature ∈ ch.issued_tokens) ∧
    (∀ b, boundBefore toks (d + 1) = some b → d ≤ b)

/-- Spec §4.8 acceptance: public channel, owner source, or some chain index
`d` such that every index up to `d` passes its checks and the token at `d`
hands the capability to `source_id`. -/
def specAccepts (ch : ChannelV) (source_id : Nat) (toks : List EncToken) : Prop :=
  ch.is_public = true ∨ source_id = ch.session_serial ∨
    ∃ d, d < toks.length ∧ (∀ i, i ≤ d → stepOk ch toks i) ∧
      recvBefore ch toks (d + 1) = source_id

/-! ### Equivalence of the loop with the spec-side predicate -/

lemma listMin_mem : ∀ {l : List Nat} {v : Nat}, listMin l = some v → v ∈ l := by
  intro l
  induction l with
  | nil => intro v h; simp [listMin] at h
  | cons a l ih =>
    intro v h
    simp only [listMin, Option.some_inj] at h
    cases hm : listMin l with
    | none => rw [hm] at h; simp only [Option.elim] at h; simp [← h]
    | some w =>
      rw [hm] at h
      simp only [Option.elim] at h
      rcases min_choice a w with h' | h'
      · rw [← h, h']; exact List.mem_cons_self a l
      · rw [← h, h']; exact List.mem_cons_of_mem a (ih hm)

lemma listMin_le_mem : ∀ {l : List Nat} {x : Nat}, x ∈ l →
    ∃ v, listMin l = some v ∧ v ≤ x := by
  intro l
  induction l with
  | nil => intro x h; simp at h
  | cons a l ih =>
    intro x h
    rcases List.mem_cons.mp h with rfl | hx
    · refine ⟨(listMin l).elim x (min x), by simp [listMin], ?_⟩
      cases hm : listMin l with
      | none => simp [Option.elim]
      | some w => simp [Option.elim, min_le_left]
    · obtain ⟨w, hw, hwx⟩ := ih hx
      refine ⟨min a w, ?_, le_trans (min_le_right a w) hwx⟩
      simp [listMin, hw, Option.elim]

lemma listMin_snoc (l : List Nat) (a : Nat) :
    listMin (l ++ [a]) = some ((listMin l).elim a (fun v => min v a)) := by
  induction l with
  | nil => simp [listMin]
  | cons b l ih =>
    simp only [List.cons_append, listMin, ih]
    cases hm : listMin l with
    | none => simp [ih, hm, Option.elim]
    | some w => simp [ih, hm, Option.elim, min_assoc]

lemma boundBefore_succ (toks : List EncToken) (d : Nat) :
    boundBefore toks (d + 1) =
      match declaredBound toks d with
      | none => boundBefore toks d
      | some a => some ((boundBefore toks d).elim a (fun v => min v a)) := by
  unfold boundBefore
  rw [List.range_succ, List.filterMap_append]
  cases hdb : declaredBound toks d with
  | none => simp [hdb]
  | some a => simp [hdb, listMin_snoc]

lemma declaredBound_pos {toks : List EncToken} {i b : Nat}
    (h : declaredBound toks i = some b) : 1 ≤ b := by
  unfold declaredBound at h
  cases ht : tokenAt toks i with
  | none => simp [ht] at h
  | some t =>
    cases hm : t.max_depth with
    | none => simp [ht, hm] at h
    | some m =>
      by_cases h0 : m = 0
      · simp [ht, hm, h0] at h
      · simp [ht, hm, h0] at h
        omega

lemma boundBefore_pos {toks : List EncToken} {d v : Nat}
    (h : boundBefore toks d = some v) : 1 ≤ v := by
  have hv := listMin_mem h
  obtain ⟨i, _, hdb⟩ := List.mem_filterMap.mp hv
  exact declaredBound_pos hdb

lemma pyFalsy_bound_iff {toks : List EncToken} {d : Nat} :
    pyFalsy (boundBefore toks d) = true ↔ boundBefore toks d = none := by
  cases hb : boundBefore toks d with
  | none => simp [pyFalsy]
  | some v =>
    have := boundBefore_pos hb
    simp [pyFalsy]
    omega

/-- The `max_depth` update computed by an iteration of the loop at depth
`d`, starting from the accumulated bound, yields the accumulated bound one
step further. -/
lemma md_update_eq (toks : List EncToken) (d : Nat) {token : Token}
    (ht : tokenAt toks d = some token) :
    mdUpdate token.max_depth (boundBefore toks d) d = boundBefore toks (d + 1) := by
  unfold mdUpdate
  rw [boundBefore_succ]
  cases hm : token.max_depth with
  | none =>
    have hdb : declaredBound toks d = none := by
      simp [declaredBound, ht, hm]
    simp [pyFalsy, hm, hdb]
  | some m =>
    by_cases h0 : m = 0
    · have hdb : declaredBound toks d = none := by
        simp [declaredBound, ht, hm, h0]
      simp [pyFalsy, hm, h0, hdb]
    · have hdb : declaredBound toks d = some (d + m) := by
        simp [declaredBound, ht, hm, h0]
      have hpf : pyFalsy (some m) = false := by simp [pyFalsy, h0]
      rw [hdb, if_pos hpf]
      simp only [Option.getD_some]
      cases hb : boundBefore toks d with
      | none => simp [pyFalsy, Option.elim, Nat.add_comm m d]
      | some v =>
        have hv1 := boundBefore_pos hb
        have hpfv : pyFalsy (some v) = false := by
          simp [pyFalsy]; omega
        simp only [Option.elim, Option.getD_some, hpfv]
        by_cases hlt : m + d < v
        · rw [if_pos (by right; exact hlt)]
          have hmin : min v (d + m) = d + m := min_eq_right (by omega)
          rw [hmin, Nat.add_comm m d]
        · rw [if_neg (by simp [hpfv]; omega)]
          have hmin : min v (d + m) = v := min_eq_left (by omega)
          rw [hmin]

/-- Bridge between the loop and the spec predicate: started at chain index
`d` with the state determined by the prefix, the loop accepts exactly when
some index `k ≥ d` completes a fully-checked run of indices `d..k` whose
last token hands the capability to `src`. -/
lemma validateLoop_iff_spec (ch : ChannelV) (src : Nat) (toks : List EncToken) :
    ∀ (rest : List EncToken) (d : Nat), rest = toks.drop d →
      (validateLoop ch src rest (assetBefore ch toks d) (recvBefore ch toks d)
          (boundBefore toks d) d = true ↔
        ∃ k, d ≤ k ∧ k < toks.length ∧ (∀ i, d ≤ i → i ≤ k → stepOk ch toks i) ∧
          recvBefore ch toks (k + 1) = src) := by
  intro rest
  induction rest with
  | nil =>
    intro d hrest
    have hlen : toks.length ≤ d := by
      have h := congrArg List.length hrest
      simp [List.length_drop] at h
      omega
    simp only [validateLoop]
    constructor
    · intro h; simp at h
    · rintro ⟨k, hdk, hkl, -, -⟩; omega
  | cons tok rest' ih =>
    intro d hrest
    have hget : toks[d]? = some tok := by
      have h0 : (toks.drop d)[0]? = some tok := by
        rw [← hrest]
        simp
      rw [List.getElem?_drop] at h0
      simpa using h0
    have hd1 : rest' = toks.drop (d + 1) := by
      have h1 : (toks.drop d).drop 1 = toks.drop (d + 1) := List.drop_drop 1 d toks
      rw [← hrest] at h1
      simp only [List.drop_one, List.tail_cons] at h1
      exact h1
    have hdlt : d < toks.length := by
      by_contra hle
      have hn : toks[d]? = none := List.getElem?_eq_none (by omega)
      simp [hn] at hget
    cases tok with
    | none =>
      have htok : tokenAt toks d = none := by simp [tokenAt, hget]
      simp only [validateLoop]
      constructor
      · intro h; simp at h
      · rintro ⟨k, hdk, hkl, hall, -⟩
        obtain ⟨t, ht, -, -, -, -⟩ := hall d le_rfl hdk
        rw [htok] at ht
        exact Option.noConfusion ht
    | some token =>
      have htok : tokenAt toks d = some token := by simp [tokenAt, hget]
      have hasset1 : assetBefore ch toks (d + 1) = token.signature := by
        simp [assetBefore, htok]
      have hrecv1 : recvBefore ch toks (d + 1) = token.receiver := by
        simp [recvBefore, htok]
      have hmd : mdUpdate token.max_depth (boundBefore toks d) d =
          boundBefore toks (d + 1) := md_update_eq toks d htok
      by_cases hc1 : token.asset = assetBefore ch toks d ∧
          token.issuer = recvBefore ch toks d
      case neg =>
        have hlhs : validateLoop ch src (some token :: rest') (assetBefore ch toks d)
            (recvBefore ch toks d) (boundBefore toks d) d = false := by
          simp only [validateLoop]
          rw [if_neg hc1]
        rw [hlhs]
        constructor
        · intro h; simp at h
        · rintro ⟨k, hdk, hkl, hall, -⟩
          obtain ⟨t, ht, h2, h3, -, -⟩ := hall d le_rfl hdk
          rw [htok] at ht
          injection ht with ht
          subst ht
          exact (hc1 ⟨h2, h3⟩).elim
      case pos =>
        by_cases hc2 : token.issuer = ch.session_serial ∧
            token.signature ∉ ch.issued_tokens
        case pos =>
          have hlhs : validateLoop ch src (some token :: rest') (assetBefore ch toks d)
              (recvBefore ch toks d) (boundBefore toks d) d = false := by
            simp only [validateLoop]
            rw [if_pos hc1, if_pos hc2]
          rw [hlhs]
          constructor
          · intro h; simp at h
          · rintro ⟨k, hdk, hkl, hall, -⟩
            obtain ⟨t, ht, -, -, hled, -⟩ := hall d le_rfl hdk
            rw [htok] at ht
            injection ht with ht
            subst ht
            exact (hc2.2 (hled hc2.1)).elim
        case neg =>
          have hledger : token.issuer = ch.session_serial →
              token.signature ∈ ch.issued_tokens := by
            intro hi
            by_contra hn
            exact hc2 ⟨hi, hn⟩
          by_cases hc3 : pyFalsy (mdUpdate token.max_depth (boundBefore toks d) d) = true ∨
              d ≤ (mdUpdate token.max_depth (boundBefore toks d) d).getD 0
          case neg =>
            have hlhs : validateLoop ch src (some token :: rest') (assetBefore ch toks d)
                (recvBefore ch toks d) (boundBefore toks d) d = false := by
              simp only [validateLoop]
              rw [if_pos hc1, if_neg hc2, if_neg hc3]
            rw [hlhs]
            constructor
            · intro h; simp at h
            · rintro ⟨k, hdk, hkl, hall, -⟩
              obtain ⟨t, ht, -, -, -, hbound⟩ := hall d le_rfl hdk
              rw [htok] at ht
              injection ht with ht
              subst ht
              rw [hmd] at hc3
              push_neg at hc3
              obtain ⟨hpf, hgd⟩ := hc3
              cases hb : boundBefore toks (d + 1) with
              | none => rw [hb] at hpf; simp [pyFalsy] at hpf
              | some v =>
                have hdv := hbound v hb
                rw [hb] at hgd
                simp at hgd
                omega
          case pos =>
            have hstep : stepOk ch toks d := by
              refine ⟨token, htok, hc1.1, hc1.2, hledger, ?_⟩
              intro b hb
              rw [hmd] at hc3
              rcases hc3 with hpf | hle
              · rw [hb] at hpf
                have := boundBefore_pos hb
                simp [pyFalsy] at hpf
                omega
              · rw [hb] at hle
                simpa using hle
            by_cases hc4 : token.receiver = src
            case pos =>
              have hlhs : validateLoop ch src (some token :: rest')
                  (assetBefore ch toks d) (recvBefore ch toks d)
                  (boundBefore toks d) d = true := by
                simp only [validateLoop]
                rw [if_pos hc1, if_neg hc2, if_pos hc3, if_pos hc4]
              rw [hlhs]
              constructor
              · intro _
                refine ⟨d, le_rfl, hdlt, ?_, ?_⟩
                · intro i h1 h2
                  have : i = d := by omega
                  subst this
                  exact hstep
                · rw [hrecv1]; exact hc4
              · intro _; rfl
            case neg =>
              have hlhs : validateLoop ch src (some token :: rest')
                  (assetBefore ch toks d) (recvBefore ch toks d)
                  (boundBefore toks d) d =
                  validateLoop ch src rest' token.signature token.receiver
                    (mdUpdate token.max_depth (boundBefore toks d) d) (d + 1) := by
                simp only [validateLoop]
                rw [if_pos hc1, if_neg hc2, if_pos hc3, if_neg hc4]
              rw [hlhs, hmd, ← hasset1, ← hrecv1, ih (d + 1) hd1]
              constructor
              · rintro ⟨k, hk1, hkl, hall, hrecv⟩
                refine ⟨k, by omega, hkl, ?_, hrecv⟩
                intro i h1 h2
                rcases Nat.eq_or_lt_of_le h1 with h1' | h1'
                · rw [← h1']; exact hstep
                · exact hall i (by omega) h2
              · rintro ⟨k, hk1, hkl, hall, hrecv⟩
                have hkd : k ≠ d := by
                  rintro rfl
                  exact hc4 (hrecv1.symm.trans hrecv)
                exact ⟨k, by omega, hkl, fun i h1 h2 => hall i (by omega) h2, hrecv⟩

/-- Equivalence of `validate_token_chain` with the spec-side predicate. -/
lemma validate_iff_spec (ch : ChannelV) (src : Nat) (toks : List EncToken) :
    validate_token_chain ch src toks = true ↔ specAccepts ch src toks := by
  unfold validate_token_chain specAccepts
  by_cases h0 : ch.is_public = true ∨ src = ch.session_serial
  · rw [if_pos h0]
    simp only [true_iff]
    tauto
  · rw [if_neg h0]
    push_neg at h0
    cases toks with
    | nil =>
      have he : ([] : List EncToken).isEmpty = true := rfl
      rw [if_pos he]
      constructor
      · intro h; simp at h
      · rintro (h | h | ⟨d, hd, -, -⟩)
        · exact absurd h h0.1
        · exact absurd h h0.2
        · simp at hd
    | cons t0 rest0 =>
      rw [if_neg (by simp : ¬((t0 :: rest0).isEmpty = true))]
      have hb := validateLoop_iff_spec ch src (t0 :: rest0) (t0 :: rest0) 0 rfl
      have ha : assetBefore ch (t0 :: rest0) 0 = ch.channel_serial := rfl
      have hr : recvBefore ch (t0 :: rest0) 0 = ch.session_serial := rfl
      have hbb : boundBefore (t0 :: rest0) 0 = none := rfl
      rw [ha, hr, hbb] at hb
      rw [hb]
      constructor
      · rintro ⟨k, -, hkl, hall, hrecv⟩
        exact Or.inr (Or.inr ⟨k, hkl, fun i hi => hall i (Nat.zero_le i) hi, hrecv⟩)
      · rintro (h | h | ⟨d, hd, hall, hrecv⟩)
        · exact absurd h h0.1
        · exact absurd h h0.2
        · exact ⟨d, Nat.zero_le d, hd, fun i _ h2 => hall i h2, hrecv⟩

/-! ### Localization: prefix indices only depend on the prefix -/

lemma tokenAt_append (pre rest : List EncToken) (i : Nat) (h : i < pre.length) :
    tokenAt (pre ++ rest) i = tokenAt pre i := by
  unfold tokenAt
  rw [List.getElem?_append, if_pos h]

lemma assetBefore_append (ch : ChannelV) (pre rest : List EncToken) (d : Nat)
    (h : d ≤ pre.length) :
    assetBefore ch (pre ++ rest) d = assetBefore ch pre d := by
  cases d with
  | zero => rfl
  | succ e =>
    have h1 : tokenAt (pre ++ rest) e = tokenAt pre e :=
      tokenAt_append pre rest e (by omega)
    simp [assetBefore, h1]

lemma recvBefore_append (ch : ChannelV) (pre rest : List EncToken) (d : Nat)
    (h : d ≤ pre.length) :
    recvBefore ch (pre ++ rest) d = recvBefore ch pre d := by
  cases d with
  | zero => rfl
  | succ e =>
    have h1 : tokenAt (pre ++ rest) e = tokenAt pre e :=
      tokenAt_append pre rest e (by omega)
    simp [recvBefore, h1]

lemma boundBefore_append (pre rest : List EncToken) (d : Nat)
    (h : d ≤ pre.length) :
    boundBefore (pre ++ rest) d = boundBefore pre d := by
  unfold boundBefore
  congr 1
  apply List.filterMap_congr
  intro i hi
  have hi' : i < pre.length := by
    have := List.mem_range.mp hi
    omega
  unfold declaredBound
  rw [tokenAt_append pre rest i hi']

lemma stepOk_append (ch : ChannelV) (pre rest : List EncToken) (d : Nat)
    (h : d < pre.length) :
    stepOk ch (pre ++ rest) d ↔ stepOk ch pre d := by
  unfold stepOk
  rw [tokenAt_append pre rest d h, assetBefore_append ch pre rest d (by omega),
    recvBefore_append ch pre rest d (by omega),
    boundBefore_append pre rest (d + 1) (by omega)]

end Telekinesis

namespace Telekinesis

/-! ## Claim C4: token-chain validation against the spec predicate -/

/-- Claim C4: `Channel.validate_token_chain(source_id, tokens)` returns
`True` exactly when the channel is public, or the source is the owning
session, or some chain index `d` exists such that every index up to `d`
passes the per-index checks of spec §4.8 (valid signature, asset and issuer
continuity, owner-issuance ledger check, accumulated depth bound) and the
token at `d` hands the capability to `source_id`.  In particular an empty
chain from a non-owner on a non-public channel is rejected, since no index
below length 0 exists. -/
theorem c4_validate_token_chain_iff_spec (ch : ChannelV) (src : Nat)
    (toks : List EncToken) :
    validate_token_chain ch src toks = true ↔ specAccepts ch src toks :=
  validate_iff_spec ch src toks

/-! ## Claim C5: revocation -/

/-- Claim C5: after `Session.revoke_token(sig)` removes `sig` from
`issued_tokens`, a chain that traverses an owner-issued token carrying
signature `sig` validates exactly as the prefix strictly before that token
does — acceptance can never pass through the revoked token, so every chain
that needs it (its prefix alone does not authorize the source) is
rejected. -/
theorem c5_revoked_token_rejected (led : List Nat) (sig : Nat) (ch : ChannelV)
    (src : Nat) (pre post : List EncToken) (t : Token)
    (hled : ch.issued_tokens = revoke_token led sig)
    (hp : ch.is_public = false)
    (hs : src ≠ ch.session_serial)
    (hiss : t.issuer = ch.session_serial)
    (hsig : t.signature = sig) :
    validate_token_chain ch src (pre ++ some t :: post) =
      validate_token_chain ch src pre := by
  have hnotin : t.signature ∉ ch.issued_tokens := by
    rw [hled, hsig]
    intro hmem
    unfold revoke_token at hmem
    have h := (List.mem_filter.mp hmem).2
    simp at h
  have hspec : ∀ toks : List EncToken, validate_token_chain ch src toks = true ↔
      (∃ d, d < toks.length ∧ (∀ i, i ≤ d → stepOk ch toks i) ∧
        recvBefore ch toks (d + 1) = src) := by
    intro toks
    rw [validate_iff_spec]
    unfold specAccepts
    constructor
    · rintro (h | h | h)
      · rw [hp] at h; cases h
      · exact absurd h hs
      · exact h
    · intro h
      exact Or.inr (Or.inr h)
  by_cases hpre : validate_token_chain ch src pre = true
  · rw [hpre, hspec]
    obtain ⟨d, hd, hall, hrecv⟩ := (hspec pre).mp hpre
    refine ⟨d, ?_, ?_, ?_⟩
    · rw [List.length_append]; omega
    · intro i hi
      exact (stepOk_append ch pre (some t :: post) i (by omega)).mpr (hall i hi)
    · rw [recvBefore_append ch pre (some t :: post) (d + 1) (by omega)]
      exact hrecv
  · have hpre' : validate_token_chain ch src pre = false := by
      cases hv : validate_token_chain ch src pre
      · rfl
      · exact absurd hv hpre
    rw [hpre']
    cases hv : validate_token_chain ch src (pre ++ some t :: post)
    · rfl
    · exfalso
      obtain ⟨d, hd, hall, hrecv⟩ := (hspec _).mp hv
      by_cases hdp : d < pre.length
      · apply hpre
        rw [hspec]
        refine ⟨d, hdp,
          fun i hi => (stepOk_append ch pre (some t :: post) i (by omega)).mp (hall i hi), ?_⟩
        rw [← recvBefore_append ch pre (some t :: post) (d + 1) (by omega)]
        exact hrecv
      · obtain ⟨t', ht', -, -, hled', -⟩ := hall pre.length (by omega)
        have htk : tokenAt (pre ++ some t :: post) pre.length = some t := by
          unfold tokenAt
          rw [List.getElem?_append, if_neg (by omega)]
          simp
        rw [htk] at ht'
        injection ht' with ht'
        subst ht'
        exact hnotin (hled' hiss)

/-- Ledger, channel and token for the revocation witness. -/
def c5Chan : ChannelV :=
  { is_public := false, channel_serial := 10, session_serial := 20,
    issued_tokens := revoke_token [5] 5 }

/-- The revoked owner-issued token of the revocation witness. -/
def c5Tok : Token :=
  { issuer := 20, receiver := 30, asset := 10, max_depth := none, signature := 5 }

/-- Witness for C5 at a concrete input: a single owner-issued token whose
signature was just revoked; the chain through it validates exactly as the
empty prefix, i.e. is rejected. -/
theorem c5_witness :
    (c5Chan.issued_tokens = revoke_token [5] 5 ∧ c5Chan.is_public = false ∧
      (30 : Nat) ≠ c5Chan.session_serial ∧ c5Tok.issuer = c5Chan.session_serial ∧
      c5Tok.signature = 5) ∧
    validate_token_chain c5Chan 30 ([] ++ some c5Tok :: []) =
      validate_token_chain c5Chan 30 [] :=
  ⟨by decide,
   c5_revoked_token_rejected [5] 5 c5Chan 30 [] [] c5Tok (by decide) (by decide)
     (by decide) (by decide) (by decide)⟩

/-! ## Claim C6: max-depth enforcement -/

/-- Channel for the max-depth-zero counterexample. -/
def c6Chan : ChannelV :=
  { is_public := false, channel_serial := 10, session_serial := 20,
    issued_tokens := [100] }

/-- Owner-issued token declaring `max_depth = 0`. -/
def c6TokA : Token :=
  { issuer := 20, receiver := 30, asset := 10, max_depth := some 0, signature := 100 }

/-- Extension token reaching the source at index 1. -/
def c6TokB : Token :=
  { issuer := 30, receiver := 40, asset := 100, max_depth := none, signature := 101 }

/-- The two-token chain of the counterexample. -/
def c6Toks : List EncToken := [some c6TokA, some c6TokB]

/-- Claim C6, counterexample: the token at index 0 declares `max_depth = 0`,
so by the claim the accumulated bound is `0 + 0 = 0` and index 1 exceeds
it — the chain should be rejected for this smallest declared value.  The
code's `if token.max_depth:` treats a declared `0` as *no declaration*
(Python falsiness) and accepts the chain. -/
theorem c6_max_depth_zero_not_enforced :
    c6TokA.max_depth = some 0 ∧ (0 : Nat) + 0 < 1 ∧
    validate_token_chain c6Chan 40 c6Toks = true := by
  decide

/-- Claim C6 (amended to positive declared values): if the token at index
`i` declares `max_depth = m ≥ 1` and every index whose token hands the
capability to `src` lies beyond `i + m`, the chain is rejected — the
accumulated bound is the minimum of `index + declared` over all declaring
tokens processed so far, and an acceptance index would have to exceed it. -/
theorem c6_max_depth_enforced (ch : ChannelV) (src : Nat) (toks : List EncToken)
    (hp : ch.is_public = false) (hs : src ≠ ch.session_serial)
    (i : Nat) (t : Token) (hti : tokenAt toks i = some t)
    (m : Nat) (hm : t.max_depth = some m) (hm1 : 1 ≤ m)
    (hfar : ∀ j, j < toks.length →
      (tokenAt toks j).map Token.receiver = some src → i + m < j) :
    validate_token_chain ch src toks = false := by
  cases hv : validate_token_chain ch src toks
  · rfl
  · exfalso
    have hacc := (validate_iff_spec ch src toks).mp hv
    unfold specAccepts at hacc
    rcases hacc with h | h | ⟨d, hd, hall, hrecv⟩
    · rw [hp] at h; cases h
    · exact hs h
    · obtain ⟨td, htd, -, -, -, hbound⟩ := hall d le_rfl
      have hrecvd : td.receiver = src := by
        have hr : recvBefore ch toks (d + 1) = td.receiver := by
          simp [recvBefore, htd]
        rw [hr] at hrecv
        exact hrecv
      have hfar' : i + m < d := hfar d hd (by rw [htd]; simp [hrecvd])
      have hdb : declaredBound toks i = some (i + m) := by
        simp only [declaredBound, hti, hm]
        rw [if_neg (by omega : ¬ m = 0)]
      have hmem : (i + m) ∈ (List.range (d + 1)).filterMap (declaredBound toks) := by
        apply List.mem_filterMap.mpr
        exact ⟨i, List.mem_range.mpr (by omega), hdb⟩
      obtain ⟨v, hv', hvle⟩ := listMin_le_mem hmem
      have hbb : boundBefore toks (d + 1) = some v := by
        unfold boundBefore
        exact hv'
      have hdlev := hbound v hbb
      omega

/-- Channel of the max-depth witness. -/
def c6bChan : ChannelV :=
  { is_public := false, channel_serial := 10, session_serial := 20,
    issued_tokens := [100] }

/-- Root token of the max-depth witness, declaring `max_depth = 1`. -/
def c6bT0 : Token :=
  { issuer := 20, receiver := 30, asset := 10, max_depth := some 1, signature := 100 }

/-- First extension token of the max-depth witness. -/
def c6bT1 : Token :=
  { issuer := 30, receiver := 31, asset := 100, max_depth := none, signature := 101 }

/-- Second extension token of the max-depth witness, reaching the source
only at index 2, beyond the declared bound `0 + 1`. -/
def c6bT2 : Token :=
  { issuer := 31, receiver := 40, asset := 101, max_depth := none, signature := 102 }

/-- The three-token chain of the max-depth witness. -/
def c6bToks : List EncToken := [some c6bT0, some c6bT1, some c6bT2]

/-- Witness for C6 at a concrete input: the root token declares
`max_depth = 1`; the only index handing the capability to the source is 2,
beyond the bound `0 + 1`, and the chain is rejected. -/
theorem c6_witness :
    (c6bChan.is_public = false ∧ (40 : Nat) ≠ c6bChan.session_serial ∧
      tokenAt c6bToks 0 = some c6bT0 ∧ c6bT0.max_depth = some 1 ∧ (1 : Nat) ≤ 1 ∧
      (∀ j, j < c6bToks.length →
        (tokenAt c6bToks j).map Token.receiver = some 40 → 0 + 1 < j)) ∧
    validate_token_chain c6bChan 40 c6bToks = false :=
  ⟨by decide,
   c6_max_depth_enforced c6bChan 40 c6bToks (by decide) (by decide) 0 c6bT0
     (by decide) 1 (by decide) (by decide) (by decide)⟩

end Telekinesis

namespace Telekinesis

/-! ## Channel.send chunking pipeline and Channel.handle_message reassembly
(client.py lines 297-327, 344-395)

`Channel.send` encodes the application object, compresses it behind a flag
byte, splits the result into `n = (len(payload) - 1) // max_payload + 1`
chunks via the `encrypt_slice` generator, and encrypts each chunk with the
channel-pair shared key.  `Channel.handle_message` decrypts, dispatches on
the four-zero-byte sentinel, reassembles multi-chunk messages in
`self.chunks[mid]`, and decodes behind the flag byte.  We model the chunk
*plaintexts*: the authenticated encryption layer (`SharedKey` of the absent
`cryptography.py`) is, per spec §4.6/§4.7 and §6, an inverse pair applied
chunkwise between the two ends, so the receiver's dispatch sees exactly the
plaintext chunks the generator yielded. -/

/-- `self.MAX_PAYLOAD_LEN = 2**19` (line 17). -/
def MAX_PAYLOAD_LEN : Nat := 2 ^ 19

/-- `self.MAX_COMPRESSION_LEN = 2**19` (line 18). -/
def MAX_COMPRESSION_LEN : Nat := 2 ^ 19

/-- `x.to_bytes(2, 'big')`, exact for `x < 2^16` (`to_bytes` raises
`OverflowError` otherwise; the only call sites are `i` and `n` inside
`encrypt_slice`, where the overflow case for `n` is modelled as the
generator's rejection). -/
def toBytes2 (x : Nat) : Bytes := [x / 256, x % 256]

/-- `int.from_bytes(b, 'big')`. -/
def fromBytesBE (b : Bytes) : Nat := b.foldl (fun acc x => 256 * acc + x) 0

/-- `n = (len(payload) - 1) // max_payload + 1` (line 385) with Python floor
division: for `len = 0` it is `-1 // max_payload + 1 = 0` (the generator
then yields nothing); for `len ≥ 1` it is the exact ceiling. -/
def nChunks (len max_payload : Nat) : Nat :=
  if len = 0 then 0 else (len - 1) / max_payload + 1

/-- `payload[i*max_payload:(i+1)*max_payload]` (line 352). -/
def chunkSlice (payload : Bytes) (max_payload i : Nat) : Bytes :=
  (payload.drop (i * max_payload)).take max_payload

/-- The multi-chunk plaintext for chunk `i` (line 352):
`i(2) || n(2) || mid || slice`. -/
def chunkOf (payload : Bytes) (max_payload : Nat) (mid : Bytes) (n i : Nat) : Bytes :=
  toBytes2 i ++ toBytes2 n ++ mid ++ chunkSlice payload max_payload i

/-- The chunk plaintexts yielded by the recursive generator
`Channel.send.encrypt_slice` (lines 345-356) for chunk indices `0 ≤ i < n`:
one sentinel-prefixed chunk when `n == 1`; otherwise header-prefixed slices.
`none` models the generator raising: the explicit
`Exception('Payload size ... too large')` for `n > 2^16`, and the
`OverflowError` of `n.to_bytes(2, 'big')` at exactly `n = 2^16`. -/
def encrypt_slice (payload : Bytes) (max_payload : Nat) (mid : Bytes) (n : Nat) :
    Option (List Bytes) :=
  if n = 1 then some [[0, 0, 0, 0] ++ payload]
  else if 2 ^ 16 ≤ n then none
  else some ((List.range n).map (chunkOf payload max_payload mid n))

/-- The receiver's four-zero-byte sentinel test `payload[:4] == b'\x00'*4`
(line 302). -/
def isSingleFrame (p : Bytes) : Bool := p.take 4 == [0, 0, 0, 0]

/-- The per-`mid` reassembly dict `self.chunks[mid] : dict index → bytes`. -/
abbrev Inner := List (Nat × Bytes)

/-- `self.chunks : dict mid → dict index → bytes`. -/
abbrev CMap := List (Bytes × Inner)

/-- Dict lookup on the inner reassembly map. -/
def innerLookup : Inner → Nat → Option Bytes
  | [], _ => none
  | (j, c) :: rest, i => if j = i then some c else innerLookup rest i

/-- Dict assignment `inner[i] = c`: update in place, or append a new key. -/
def innerInsert : Inner → Nat → Bytes → Inner
  | [], i, c => [(i, c)]
  | (j, d) :: rest, i, c =>
    if j = i then (j, c) :: rest else (j, d) :: innerInsert rest i c

/-- Dict lookup on the outer chunks map. -/
def cmapLookup : CMap → Bytes → Option Inner
  | [], _ => none
  | (k, v) :: rest, mid => if k = mid then some v else cmapLookup rest mid

/-- Dict assignment `chunks[mid] = v`. -/
def cmapInsert : CMap → Bytes → Inner → CMap
  | [], mid, v => [(mid, v)]
  | (k, w) :: rest, mid, v =>
    if k = mid then (k, v) :: rest else (k, w) :: cmapInsert rest mid v

/-- `chunks.pop(mid)`: the remaining map. -/
def cmapErase : CMap → Bytes → CMap
  | [], _ => []
  | (k, v) :: rest, mid => if k = mid then rest else (k, v) :: cmapErase rest mid

/-- The generator expression of `b''.join(chunks[ii] for ii in range(n))`
(line 320): collect each indexed chunk, `none` on a missing index
(`KeyError`). -/
def collectChunks (inner : Inner) : List Nat → Option (List Bytes)
  | [] => some []
  | ii :: rest =>
    match innerLookup inner ii, collectChunks inner rest with
    | some c, some cs => some (c :: cs)
    | _, _ => none

/-- `b''.join(chunks[ii] for ii in range(n))` (line 320). -/
def joinChunks (inner : Inner) (n : Nat) : Option Bytes :=
  (collectChunks inner (List.range n)).map List.flatten

/-- The chunk-dispatch portion of `Channel.handle_message` (lines 302,
311-320) on one decrypted chunk plaintext, before the compression-flag
decoding: a sentinel-prefixed payload is delivered directly (its flag byte
and document bytes are `payload[4:]`); otherwise parse
`(i, n, mid, chunk)`, store `chunks[mid][i]`, and when `len(chunks[mid])`
reaches `n`, pop the entry and deliver the concatenation in index order.
Returns the updated chunks map and the delivered flag-prefixed byte string
if any; `none` models the `KeyError` of the join on a missing index. -/
def handle_chunk (chunks : CMap) (payload : Bytes) :
    Option (CMap × Option Bytes) :=
  if isSingleFrame payload then some (chunks, some (payload.drop 4))
  else
    let i := fromBytesBE (payload.take 2)
    let n := fromBytesBE ((payload.drop 2).take 2)
    let mid := (payload.drop 4).take 4
    let chunk := payload.drop 8
    let inner := (cmapLookup chunks mid).getD []
    let inner' := innerInsert inner i chunk
    let chunks' := cmapInsert chunks mid inner'
    if inner'.length = n then
      match joinChunks inner' n with
      | none => none
      | some joined => some (cmapErase chunks' mid, some joined)
    else some (chunks', none)

/-- Fold `handle_chunk` over a list of arriving chunk plaintexts, collecting
the delivered byte strings in order. -/
def processChunks (chunks : CMap) : List Bytes → Option (CMap × List Bytes)
  | [] => some (chunks, [])
  | p :: rest =>
    match handle_chunk chunks p with
    | none => none
    | some (c', out) =>
      match processChunks c' rest with
      | none => none
      | some (cf, outs) => some (cf, out.toList ++ outs)

/-! ## Claim C8: compression round-trip and flag selection
(client.py lines 302-310, 366-373)

`zlib` is an external library (spec §6: zlib/deflate); it is modelled by an
arbitrary pair of functions `cmp`/`dcmp` with `dcmp ∘ cmp = id`, quantified
in the theorem. -/

/-- Lines 370-373: `payload = b'\xff' + zlib.compress(payload)` when
`len(payload) < MAX_COMPRESSION_LEN`, else `b'\x00' + payload`. -/
def sendCompress (cmp : Bytes → Bytes) (p : Bytes) : Bytes :=
  if p.length < MAX_COMPRESSION_LEN then 255 :: cmp p else 0 :: p

/-- The receive-side compression-flag decoding (lines 303-308 and 321-326):
flag byte 0 yields the remainder raw, flag byte 255 yields the
decompressed remainder, anything else raises (`none`). -/
def flagDecode (dcmp : Bytes → Bytes) : Bytes → Option Bytes
  | 0 :: rest => some rest
  | 255 :: rest => some (dcmp rest)
  | _ => none

end Telekinesis

namespace Telekinesis

/-- Claim C8: the send pipeline produces `0xff || zlib(p)` exactly when
`len(p) < MAX_COMPRESSION_LEN` and `0x00 || p` otherwise, and the receive
side inverts both cases, recovering `p`, for any compression scheme
`cmp`/`dcmp` with `dcmp ∘ cmp = id` (zlib per spec §6). -/
theorem c8_compression_round_trip (cmp dcmp : Bytes → Bytes)
    (hinv : ∀ x, dcmp (cmp x) = x) (p : Bytes) :
    (sendCompress cmp p = 255 :: cmp p ↔ p.length < MAX_COMPRESSION_LEN) ∧
    (¬ p.length < MAX_COMPRESSION_LEN → sendCompress cmp p = 0 :: p) ∧
    flagDecode dcmp (sendCompress cmp p) = some p := by
  by_cases h : p.length < MAX_COMPRESSION_LEN
  · refine ⟨⟨fun _ => h, fun _ => ?_⟩, fun h' => absurd h h', ?_⟩
    · unfold sendCompress
      rw [if_pos h]
    · unfold sendCompress
      rw [if_pos h]
      show some (dcmp (cmp p)) = some p
      rw [hinv p]
  · have hs : sendCompress cmp p = 0 :: p := by
      unfold sendCompress
      rw [if_neg h]
    refine ⟨⟨fun he => ?_, fun hc => absurd hc h⟩, fun _ => hs, ?_⟩
    · rw [hs] at he
      injection he with h0 htail
      omega
    · rw [hs]
      rfl

/-- Witness for C8 at a concrete input, instantiating the compression
scheme with the identity pair. -/
theorem c8_witness :
    (∀ x : Bytes, id (id x) = x) ∧
    ((sendCompress id [1, 2] = 255 :: id [1, 2] ↔
        ([1, 2] : Bytes).length < MAX_COMPRESSION_LEN) ∧
      (¬ ([1, 2] : Bytes).length < MAX_COMPRESSION_LEN →
        sendCompress id [1, 2] = 0 :: [1, 2]) ∧
      flagDecode id (sendCompress id [1, 2]) = some [1, 2]) :=
  ⟨fun _ => rfl, c8_compression_round_trip id id (fun _ => rfl) [1, 2]⟩

/-! ## Claim C10: sentinel non-collision -/

/-- Computation of `take 4` on an explicit four-cons prefix. -/
lemma take_four_cons (w x y z : Nat) (rest : Bytes) :
    (w :: x :: y :: z :: rest).take 4 = [w, x, y, z] := rfl

/-- A multi-chunk plaintext (chunk count `2 ≤ n < 2^16`) never starts with
four zero bytes: its bytes 2-3 are the big-endian encoding of `n ≥ 2`. -/
lemma isSingleFrame_chunkOf (payload : Bytes) (max_payload : Nat) (mid : Bytes)
    (n i : Nat) (h2 : 2 ≤ n) (hn : n < 2 ^ 16) :
    isSingleFrame (chunkOf payload max_payload mid n i) = false := by
  have hc : chunkOf payload max_payload mid n i =
      (i / 256) :: (i % 256) :: (n / 256) :: (n % 256) ::
        (mid ++ chunkSlice payload max_payload i) := by
    simp [chunkOf, toBytes2]
  rw [hc]
  unfold isSingleFrame
  rw [take_four_cons]
  rw [beq_eq_false_iff_ne]
  intro h
  simp only [List.cons.injEq, and_true] at h
  omega

/-- Claim C10: for every multi-chunk send (`2 ≤ n`, with `n < 2^16` so the
chunks are produced at all), no chunk plaintext yielded by `encrypt_slice`
passes the receiver's four-zero-byte sentinel test, so
`Channel.handle_message` never misclassifies a chunk of a multi-chunk
message as a single-frame message. -/
theorem c10_sentinel_no_collision (payload : Bytes) (max_payload : Nat)
    (mid : Bytes) (n : Nat) (h2 : 2 ≤ n) (hn : n < 2 ^ 16) (cs : List Bytes)
    (hcs : encrypt_slice payload max_payload mid n = some cs) :
    ∀ c ∈ cs, isSingleFrame c = false := by
  unfold encrypt_slice at hcs
  rw [if_neg (by omega), if_neg (by omega)] at hcs
  injection hcs with hcs
  subst hcs
  intro c hc
  obtain ⟨i, -, rfl⟩ := List.mem_map.mp hc
  exact isSingleFrame_chunkOf payload max_payload mid n i h2 hn

/-- The two chunk plaintexts of the C10 witness. -/
def c10Chunks : List Bytes :=
  [[0, 0, 0, 2] ++ [7, 7, 7, 7] ++ [1, 2], [0, 1, 0, 2] ++ [7, 7, 7, 7] ++ [3]]

/-- Witness for C10 at a concrete input: payload `[1,2,3]` split into two
chunks with `max_payload = 2`. -/
theorem c10_witness :
    ((2 : Nat) ≤ 2 ∧ (2 : Nat) < 2 ^ 16 ∧
      encrypt_slice [1, 2, 3] 2 [7, 7, 7, 7] 2 = some c10Chunks) ∧
    ∀ c ∈ c10Chunks, isSingleFrame c = false :=
  ⟨⟨by decide, by decide, by decide⟩,
   c10_sentinel_no_collision [1, 2, 3] 2 [7, 7, 7, 7] 2 (by decide) (by decide)
     c10Chunks (by decide)⟩

end Telekinesis

namespace Telekinesis

/-! ## Claim C7: chunking reassembly round-trip -/

/-- `int.from_bytes(x.to_bytes(2, 'big'), 'big') = x`. -/
lemma fromBytesBE_pair (x : Nat) : fromBytesBE [x / 256, x % 256] = x := by
  unfold fromBytesBE
  simp only [List.foldl_cons, List.foldl_nil]
  omega

/-- Structure of a multi-chunk plaintext as nested cons. -/
lemma chunkOf_cons (payload : Bytes) (mp : Nat) (mid : Bytes) (n i : Nat) :
    chunkOf payload mp mid n i =
      (i / 256) :: (i % 256) :: (n / 256) :: (n % 256) ::
        (mid ++ chunkSlice payload mp i) := by
  simp [chunkOf, toBytes2]

lemma take_two_cons (w x : Nat) (rest : Bytes) : (w :: x :: rest).take 2 = [w, x] := rfl

lemma drop_two_cons (w x : Nat) (rest : Bytes) : (w :: x :: rest).drop 2 = rest := rfl

lemma drop_four_cons (w x y z : Nat) (rest : Bytes) :
    (w :: x :: y :: z :: rest).drop 4 = rest := rfl

lemma drop_eight_cons (w x y z : Nat) (rest : Bytes) :
    (w :: x :: y :: z :: rest).drop 8 = rest.drop 4 := rfl

/-- The inner reassembly dict holding exactly the slices with indices from
`l`, in arrival order `l`. -/
def innerOf (payload : Bytes) (mp : Nat) (l : List Nat) : Inner :=
  l.map (fun j => (j, chunkSlice payload mp j))

/-- The chunks map after the slices with indices `l` (in that order) have
arrived for message id `mid` and no other message is in flight. -/
def stateOf (payload : Bytes) (mp : Nat) (mid : Bytes) (l : List Nat) : CMap :=
  if l.isEmpty then [] else [(mid, innerOf payload mp l)]

lemma innerOf_cons (payload : Bytes) (mp a : Nat) (l : List Nat) :
    innerOf payload mp (a :: l) =
      (a, chunkSlice payload mp a) :: innerOf payload mp l := rfl

lemma innerOf_length (payload : Bytes) (mp : Nat) (l : List Nat) :
    (innerOf payload mp l).length = l.length := by
  simp [innerOf]

lemma innerLookup_innerOf (payload : Bytes) (mp : Nat) :
    ∀ (l : List Nat) (j : Nat),
    innerLookup (innerOf payload mp l) j =
      if j ∈ l then some (chunkSlice payload mp j) else none := by
  intro l
  induction l with
  | nil => intro j; simp [innerOf, innerLookup]
  | cons a l ih =>
    intro j
    rw [innerOf_cons]
    show (if a = j then some (chunkSlice payload mp a) else
      innerLookup (innerOf payload mp l) j) = _
    by_cases haj : a = j
    · subst haj
      rw [if_pos rfl, if_pos (by simp)]
    · rw [if_neg haj, ih j]
      by_cases hj : j ∈ l
      · rw [if_pos hj, if_pos (List.mem_cons_of_mem a hj)]
      · rw [if_neg hj, if_neg (by
          rw [List.mem_cons]
          rintro (h | h)
          · exact haj h.symm
          · exact hj h)]

lemma innerInsert_innerOf (payload : Bytes) (mp : Nat) :
    ∀ (l : List Nat) (j : Nat), j ∉ l →
    innerInsert (innerOf payload mp l) j (chunkSlice payload mp j) =
      innerOf payload mp (l ++ [j]) := by
  intro l
  induction l with
  | nil => intro j hj; rfl
  | cons a l ih =>
    intro j hj
    have haj : ¬ a = j := fun h => hj (by rw [h]; exact List.mem_cons_self j l)
    rw [innerOf_cons, List.cons_append, innerOf_cons]
    show (if a = j then _ else (a, chunkSlice payload mp a) ::
      innerInsert (innerOf payload mp l) j (chunkSlice payload mp j)) = _
    rw [if_neg haj, ih j (fun h => hj (List.mem_cons_of_mem a h))]

lemma collectChunks_innerOf (payload : Bytes) (mp : Nat) (l : List Nat) :
    ∀ (idxs : List Nat), (∀ ii ∈ idxs, ii ∈ l) →
    collectChunks (innerOf payload mp l) idxs =
      some (idxs.map (chunkSlice payload mp)) := by
  intro idxs
  induction idxs with
  | nil => intro _; rfl
  | cons ii idxs ih =>
    intro hall
    have h1 : innerLookup (innerOf payload mp l) ii =
        some (chunkSlice payload mp ii) := by
      rw [innerLookup_innerOf payload mp l ii, if_pos (hall ii (by simp))]
    simp [collectChunks, h1, ih (fun x hx => hall x (by simp [hx]))]

lemma joinChunks_innerOf (payload : Bytes) (mp : Nat) (l : List Nat) (n : Nat)
    (hall : ∀ ii ∈ List.range n, ii ∈ l) :
    joinChunks (innerOf payload mp l) n =
      some (((List.range n).map (chunkSlice payload mp)).flatten) := by
  unfold joinChunks
  rw [collectChunks_innerOf payload mp l (List.range n) hall]
  rfl

/-- Pigeonhole: a duplicate-free list of `n` naturals below `n` contains
every index below `n`. -/
lemma full_range_mem (n : Nat) (l : List Nat) (hnd : l.Nodup)
    (hb : ∀ j ∈ l, j < n) (hlen : l.length = n) :
    ∀ ii ∈ List.range n, ii ∈ l := by
  intro ii hii
  have hsub : l.toFinset ⊆ Finset.range n := by
    intro x hx
    rw [List.mem_toFinset] at hx
    exact Finset.mem_range.mpr (hb x hx)
  have hcard : (Finset.range n).card ≤ l.toFinset.card := by
    rw [Finset.card_range, List.toFinset_card_of_nodup hnd, hlen]
  have heq := Finset.eq_of_subset_of_card_le hsub hcard
  rw [← List.mem_toFinset, heq]
  exact Finset.mem_range.mpr (List.mem_range.mp hii)

/-- Concatenating the `max_payload`-sized slices in index order recovers the
payload. -/
lemma join_chunkSlice (mp : Nat) :
    ∀ (n : Nat) (p : Bytes), p.length ≤ n * mp →
      ((List.range n).map (chunkSlice p mp)).flatten = p := by
  intro n
  induction n with
  | zero =>
    intro p hp
    simp only [Nat.zero_mul, Nat.le_zero] at hp
    have hnil : p = [] := List.eq_nil_of_length_eq_zero hp
    simp [hnil]
  | succ n ih =>
    intro p hp
    rw [List.range_succ_eq_map, List.map_cons, List.map_map, List.flatten_cons]
    have h0 : chunkSlice p mp 0 = p.take mp := by
      simp [chunkSlice]
    have hshift : ∀ i ∈ List.range n,
        (chunkSlice p mp ∘ Nat.succ) i = chunkSlice (p.drop mp) mp i := by
      intro i _
      simp only [Function.comp, Nat.succ_eq_add_one]
      unfold chunkSlice
      rw [List.drop_drop]
      have harith : (i + 1) * mp = mp + i * mp := by ring
      rw [harith]
    rw [List.map_congr_left hshift, h0]
    rw [ih (p.drop mp) (by
      have h1 : (p.drop mp).length = p.length - mp := List.length_drop mp p
      have h2 : (n + 1) * mp = n * mp + mp := by ring
      omega)]
    exact List.take_append_drop mp p

lemma stateOf_lookup (payload : Bytes) (mp : Nat) (mid : Bytes) (l : List Nat) :
    (cmapLookup (stateOf payload mp mid l) mid).getD [] = innerOf payload mp l := by
  cases l with
  | nil => rfl
  | cons a l => simp [stateOf, cmapLookup]

lemma stateOf_insert (payload : Bytes) (mp : Nat) (mid : Bytes) (l : List Nat)
    (v : Inner) : cmapInsert (stateOf payload mp mid l) mid v = [(mid, v)] := by
  cases l with
  | nil => rfl
  | cons a l => simp [stateOf, cmapInsert]

end Telekinesis

namespace Telekinesis

/-- Effect of one multi-chunk arrival: inserting chunk `i` into the state
holding the (duplicate-free) indices `prev` either completes the message —
delivering exactly the original payload and dropping the `mid` entry — when
it is the `n`-th distinct chunk, or extends the state. -/
lemma handle_chunk_step (payload : Bytes) (mp : Nat) (mid : Bytes) (n : Nat)
    (hmid : mid.length = 4) (h2 : 2 ≤ n) (hn : n < 2 ^ 16)
    (hlen : payload.length ≤ n * mp)
    (prev : List Nat) (i : Nat) (hi : i < n) (hip : i ∉ prev)
    (hpb : ∀ j ∈ prev, j < n) (hnd : prev.Nodup) (hle : prev.length + 1 ≤ n) :
    handle_chunk (stateOf payload mp mid prev) (chunkOf payload mp mid n i) =
      if prev.length + 1 = n then some ([], some payload)
      else some (stateOf payload mp mid (prev ++ [i]), none) := by
  have hsf := isSingleFrame_chunkOf payload mp mid n i h2 hn
  have hparse1 : fromBytesBE ((chunkOf payload mp mid n i).take 2) = i := by
    rw [chunkOf_cons, take_two_cons]
    exact fromBytesBE_pair i
  have hparse2 : fromBytesBE (((chunkOf payload mp mid n i).drop 2).take 2) = n := by
    rw [chunkOf_cons, drop_two_cons, take_two_cons]
    exact fromBytesBE_pair n
  have hparse3 : ((chunkOf payload mp mid n i).drop 4).take 4 = mid := by
    rw [chunkOf_cons, drop_four_cons, ← hmid, List.take_left]
  have hparse4 : (chunkOf payload mp mid n i).drop 8 = chunkSlice payload mp i := by
    rw [chunkOf_cons, drop_eight_cons, ← hmid, List.drop_left]
  unfold handle_chunk
  rw [if_neg (by rw [hsf]; exact Bool.false_ne_true)]
  simp only [hparse1, hparse2, hparse3, hparse4]
  rw [stateOf_lookup payload mp mid prev,
    innerInsert_innerOf payload mp prev i hip,
    stateOf_insert payload mp mid prev (innerOf payload mp (prev ++ [i]))]
  have hlen' : (innerOf payload mp (prev ++ [i])).length = prev.length + 1 := by
    rw [innerOf_length]
    simp
  rw [hlen']
  by_cases hfull : prev.length + 1 = n
  · rw [if_pos hfull, if_pos hfull]
    have hnd' : (prev ++ [i]).Nodup := by
      have hperm : List.Perm (prev ++ [i]) (i :: prev) :=
        List.perm_append_singleton i prev
      rw [hperm.nodup_iff, List.nodup_cons]
      exact ⟨hip, hnd⟩
    have hb' : ∀ j ∈ prev ++ [i], j < n := by
      intro j hj
      rcases List.mem_append.mp hj with h | h
      · exact hpb j h
      · have : j = i := by simpa using h
        omega
    have hlist : (prev ++ [i]).length = n := by
      simp
      omega
    have hall := full_range_mem n (prev ++ [i]) hnd' hb' hlist
    rw [joinChunks_innerOf payload mp (prev ++ [i]) n hall,
      join_chunkSlice mp n payload hlen]
    simp [cmapErase]
  · rw [if_neg hfull, if_neg hfull]
    have hne : (prev ++ [i]).isEmpty = false := by
      simp
    unfold stateOf
    rw [if_neg (by rw [hne]; exact Bool.false_ne_true)]

/-- Folding the receiver over the chunks with indices `il` (any duplicate-
free, in-range order), starting from the state holding `prev`: nothing is
delivered until all `n` indices have arrived, at which point exactly the
original payload is delivered and the `mid` entry is dropped. -/
lemma processChunks_inv (payload : Bytes) (mp : Nat) (mid : Bytes) (n : Nat)
    (hmid : mid.length = 4) (h2 : 2 ≤ n) (hn : n < 2 ^ 16)
    (hlen : payload.length ≤ n * mp) :
    ∀ (il prev : List Nat),
    (prev ++ il).Nodup → (∀ j ∈ prev ++ il, j < n) →
    prev.length + il.length ≤ n → prev.length < n →
    processChunks (stateOf payload mp mid prev)
        (il.map (chunkOf payload mp mid n)) =
      (if prev.length + il.length = n then some ([], [payload])
       else some (stateOf payload mp mid (prev ++ il), [])) := by
  intro il
  induction il with
  | nil =>
    intro prev hnd hb hle hlt
    simp only [List.map_nil, processChunks]
    rw [if_neg (by simp; omega)]
    simp
  | cons i il ih =>
    intro prev hnd hb hle hlt
    have hi_n : i < n := hb i (by simp)
    have hip : i ∉ prev := by
      intro hmem
      have := List.disjoint_of_nodup_append hnd
      exact this hmem (by simp)
    have hpb : ∀ j ∈ prev, j < n := fun j hj => hb j (by simp [hj])
    have hndp : prev.Nodup := (List.nodup_append.mp hnd).1
    have hstep := handle_chunk_step payload mp mid n hmid h2 hn hlen prev i hi_n
      hip hpb hndp (by simp at hle; omega)
    by_cases hfull : prev.length + 1 = n
    · rw [if_pos hfull] at hstep
      have hil : il = [] := by
        have hl : il.length = 0 := by
          simp at hle
          omega
        exact List.eq_nil_of_length_eq_zero hl
      subst hil
      simp only [List.map_cons, List.map_nil, processChunks, hstep]
      rw [if_pos (by simp; omega)]
      rfl
    · rw [if_neg hfull] at hstep
      simp only [List.map_cons, processChunks, hstep]
      have hassoc : prev ++ i :: il = (prev ++ [i]) ++ il := by
        simp
      have hnd' : ((prev ++ [i]) ++ il).Nodup := by
        rw [← hassoc]
        exact hnd
      have hb' : ∀ j ∈ (prev ++ [i]) ++ il, j < n := by
        rw [← hassoc]
        exact hb
      have ih' := ih (prev ++ [i]) hnd' hb'
        (by simp at hle ⊢; omega) (by simp; omega)
      rw [ih']
      by_cases htot : prev.length + (il.length + 1) = n
      · rw [if_pos (by simp; omega), if_pos (by simp; omega)]
        rfl
      · rw [if_neg (by simp; omega), if_neg (by simp; omega)]
        rw [hassoc]
        rfl

end Telekinesis

namespace Telekinesis

/-- Round-trip property claimed for the chunking pipeline at payload,
`max_payload` and `mid`, with `n = (len - 1) // max_payload + 1`:
a single chunk carries the four-zero sentinel and is delivered directly;
for `2 ≤ n < 2^16` the generator emits the `n` header-prefixed chunks, and
feeding them to the receiver in any arrival order delivers nothing until
the last chunk, at which point exactly the original payload is delivered
and the `chunks[mid]` entry is dropped (the final map is empty);
`n ≥ 2^16` is rejected. -/
def ChunkRoundTrip (payload : Bytes) (max_payload : Nat) (mid : Bytes) : Prop :=
  (nChunks payload.length max_payload = 1 →
    encrypt_slice payload max_payload mid (nChunks payload.length max_payload) =
      some [[0, 0, 0, 0] ++ payload] ∧
    processChunks [] [[0, 0, 0, 0] ++ payload] = some ([], [payload])) ∧
  (2 ≤ nChunks payload.length max_payload →
   nChunks payload.length max_payload < 2 ^ 16 →
    encrypt_slice payload max_payload mid (nChunks payload.length max_payload) =
      some ((List.range (nChunks payload.length max_payload)).map
        (chunkOf payload max_payload mid (nChunks payload.length max_payload))) ∧
    (∀ il : List Nat,
      List.Perm il (List.range (nChunks payload.length max_payload)) →
      processChunks [] (il.map (chunkOf payload max_payload mid
          (nChunks payload.length max_payload))) = some ([], [payload]) ∧
      ∀ k, k < nChunks payload.length max_payload →
        ∃ st, processChunks [] ((il.take k).map (chunkOf payload max_payload mid
            (nChunks payload.length max_payload))) = some (st, []))) ∧
  (2 ^ 16 ≤ nChunks payload.length max_payload →
    encrypt_slice payload max_payload mid (nChunks payload.length max_payload) =
      none)

/-- Claim C7 (amended at the `n = 2^16` boundary): the chunking pipeline
round-trips every payload through splitting and reassembly in any arrival
order, for every chunk count the generator accepts (`n < 2^16`); chunk
counts `≥ 2^16` are rejected. -/
theorem c7_chunk_reassembly (payload : Bytes) (max_payload : Nat) (mid : Bytes)
    (hp : payload ≠ []) (hmp : 1 ≤ max_payload) (hmid : mid.length = 4) :
    ChunkRoundTrip payload max_payload mid := by
  unfold ChunkRoundTrip
  refine ⟨?_, ?_, ?_⟩
  · intro h1
    rw [h1]
    exact ⟨rfl, rfl⟩
  · intro h2 hn
    set n := nChunks payload.length max_payload with hn_def
    have hplen : 1 ≤ payload.length := by
      cases payload with
      | nil => exact absurd rfl hp
      | cons a l => simp
    have hn_eq : n = (payload.length - 1) / max_payload + 1 := by
      rw [hn_def]
      unfold nChunks
      rw [if_neg (by omega)]
    have hdiv : (payload.length - 1) / max_payload < n := by omega
    have hlt : payload.length - 1 < n * max_payload := by
      have := (Nat.div_lt_iff_lt_mul (by omega : 0 < max_payload)).mp hdiv
      omega
    have hlen : payload.length ≤ n * max_payload := by omega
    constructor
    · unfold encrypt_slice
      rw [if_neg (by omega), if_neg (by omega)]
    · intro il hperm
      have hnd : il.Nodup := hperm.nodup_iff.mpr (List.nodup_range n)
      have hmem : ∀ j ∈ il, j < n := fun j hj =>
        List.mem_range.mp (hperm.mem_iff.mp hj)
      have hlen_il : il.length = n := by
        rw [hperm.length_eq, List.length_range]
      constructor
      · have hmain := processChunks_inv payload max_payload mid n hmid h2 hn hlen
          il [] (by simpa using hnd) (by simpa using hmem)
          (by simp [hlen_il]) (by simp only [List.length_nil]; omega)
        rw [if_pos (by simp [hlen_il])] at hmain
        rw [show stateOf payload max_payload mid [] = [] from rfl] at hmain
        exact hmain
      · intro k hk
        have hsub : (il.take k).Sublist il := List.take_sublist k il
        have hnd_t : (il.take k).Nodup := hsub.nodup hnd
        have hmem_t : ∀ j ∈ il.take k, j < n := fun j hj =>
          hmem j (List.take_subset k il hj)
        have hlen_t : (il.take k).length = k := by
          rw [List.length_take]
          omega
        have hmain := processChunks_inv payload max_payload mid n hmid h2 hn hlen
          (il.take k) [] (by simpa using hnd_t) (by simpa using hmem_t)
          (by simp [hlen_t]; omega) (by simp only [List.length_nil]; omega)
        rw [if_neg (by simp [hlen_t]; omega)] at hmain
        rw [show stateOf payload max_payload mid [] = [] from rfl] at hmain
        exact ⟨stateOf payload max_payload mid ([] ++ il.take k), hmain⟩
  · intro hbig
    unfold encrypt_slice
    rw [if_neg (by omega), if_pos hbig]

/-- Claim C7, counterexample at the boundary chunk count: with
`max_payload = 1` and a 65536-byte payload, `n = 2^16` exactly — not
`> 2^16`, so per the claim the chunks should be produced and round-trip —
but the generator rejects every such send (the `n.to_bytes(2, 'big')`
chunk-header encoding overflows at `2^16`). -/
theorem c7_boundary_chunk_count_rejected :
    nChunks (List.replicate 65536 0).length 1 = 65536 ∧
    (2 : Nat) ^ 16 = 65536 ∧
    encrypt_slice (List.replicate 65536 0) 1 [9, 9, 9, 9]
      (nChunks (List.replicate 65536 0).length 1) = none := by
  have hl : (List.replicate 65536 0).length = 65536 :=
    List.length_replicate 65536 0
  have hnc : nChunks (List.replicate 65536 0).length 1 = 65536 := by
    rw [hl]
    unfold nChunks
    rw [if_neg (by omega)]
  refine ⟨hnc, by norm_num, ?_⟩
  rw [hnc]
  unfold encrypt_slice
  rw [if_neg (by omega), if_pos (by norm_num)]

/-- Witness for C7 at a concrete input: payload `[1,2,3,4,5]` with
`max_payload = 2` (three chunks). -/
theorem c7_witness :
    (([1, 2, 3, 4, 5] : Bytes) ≠ [] ∧ (1 : Nat) ≤ 2 ∧
      ([9, 9, 9, 9] : Bytes).length = 4) ∧
    ChunkRoundTrip [1, 2, 3, 4, 5] 2 [9, 9, 9, 9] :=
  ⟨by decide,
   c7_chunk_reassembly [1, 2, 3, 4, 5] 2 [9, 9, 9, 9] (by decide) (by decide)
     (by decide)⟩

end Telekinesis

namespace Telekinesis

/-! ## Claim C9: ack handling and spurious-ack atomicity -/

/-- Whether a header contains a `send` action whose
`content['destination']['session']` is `src`. -/
def hasMatchingSend (header : List HAction) (src : Nat) : Bool :=
  header.any (fun a => match a with
    | .send dest => dest == src
    | .other => false)

/-- Number of `send` actions in a header whose destination session is
`src`.  Every header stored in `awaiting_ack` by the source carries exactly
one `send` action (`Channel.execute` appends a single `send` to the
buffered control headers), which the theorem takes as a hypothesis. -/
def matchingSends (header : List HAction) (src : Nat) : Nat :=
  header.countP (fun a => match a with
    | .send dest => dest == src
    | .other => false)

/-- The lock of the new head-of-line entry, if any — the slot signal
released at line 208. -/
def headLocks : AwaitMap → List Nat
  | [] => []
  | (_, e) :: _ => [e.lock]

lemma dictLookup_mem : ∀ {m : AwaitMap} {k : Bytes} {e : AckEntry},
    dictLookup m k = some e → (k, e) ∈ m := by
  intro m
  induction m with
  | nil => intro k e h; simp [dictLookup] at h
  | cons kv rest ih =>
    intro k e h
    obtain ⟨k', e'⟩ := kv
    unfold dictLookup at h
    by_cases hk : k' = k
    · rw [if_pos hk] at h
      injection h with h
      subst hk
      subst h
      exact List.mem_cons_self _ _
    · rw [if_neg hk] at h
      exact List.mem_cons_of_mem _ (ih h)

lemma matchingSends_other (rest : List HAction) (src : Nat) :
    matchingSends (HAction.other :: rest) src = matchingSends rest src := by
  simp [matchingSends, List.countP_cons]

lemma matchingSends_send_match (rest : List HAction) (dest src : Nat)
    (hd : dest = src) :
    matchingSends (HAction.send dest :: rest) src = matchingSends rest src + 1 := by
  simp [matchingSends, List.countP_cons, hd]

lemma matchingSends_send_no_match (rest : List HAction) (dest src : Nat)
    (hd : ¬ dest = src) :
    matchingSends (HAction.send dest :: rest) src = matchingSends rest src := by
  simp [matchingSends, List.countP_cons, hd]

lemma matchingSends_eq_zero (header : List HAction) (src : Nat)
    (h : hasMatchingSend header src = false) : matchingSends header src = 0 := by
  induction header with
  | nil => rfl
  | cons a rest ih =>
    cases a with
    | other =>
      rw [matchingSends_other]
      exact ih (by simpa [hasMatchingSend] using h)
    | send dest =>
      have hd : ¬ dest = src := by
        intro hds
        simp [hasMatchingSend, hds] at h
      rw [matchingSends_send_no_match rest dest src hd]
      apply ih
      simpa [hasMatchingSend, hd] using h

/-- A run of header items containing no matching `send` leaves the map and
the released locks untouched. -/
lemma ackLoop_no_match (src : Nat) (mid : Bytes) :
    ∀ (header : List HAction) (m : AwaitMap) (rel : List Nat),
    matchingSends header src = 0 →
    ackLoop src mid header m rel = some (m, rel) := by
  intro header
  induction header with
  | nil => intro m rel _; rfl
  | cons a rest ih =>
    intro m rel hc
    cases a with
    | other =>
      have hc' : matchingSends rest src = 0 := by
        rw [matchingSends_other] at hc
        exact hc
      exact ih m rel hc'
    | send dest =>
      have hd : ¬ dest = src := by
        intro h
        rw [matchingSends_send_match rest dest src h] at hc
        omega
      have hc' : matchingSends rest src = 0 := by
        rw [matchingSends_send_no_match rest dest src hd] at hc
        exact hc
      simp only [ackLoop]
      rw [if_neg hd]
      exact ih m rel hc'

/-- The loop on a header with exactly its first matching `send`: pop the
entry, release its lock and the new head's lock, and run to completion
unchanged. -/
lemma ackLoop_first_match (src : Nat) (mid : Bytes) :
    ∀ (header : List HAction) (m : AwaitMap) (e : AckEntry),
    dictLookup m mid = some e →
    matchingSends header src ≤ 1 →
    hasMatchingSend header src = true →
    ackLoop src mid header m [] =
      some (dictErase m mid, e.lock :: headLocks (dictErase m mid)) := by
  intro header
  induction header with
  | nil =>
    intro m e hlk hc hh
    simp [hasMatchingSend] at hh
  | cons a rest ih =>
    intro m e hlk hc hh
    cases a with
    | other =>
      have hc' : matchingSends rest src ≤ 1 := by
        rw [matchingSends_other] at hc
        exact hc
      have hh' : hasMatchingSend rest src = true := by
        simpa [hasMatchingSend] using hh
      exact ih m e hlk hc' hh'
    | send dest =>
      by_cases hd : dest = src
      · have hpop : dictPop m mid = some (e, dictErase m mid) := by
          unfold dictPop
          rw [hlk]
        have hrest : matchingSends rest src = 0 := by
          rw [matchingSends_send_match rest dest src hd] at hc
          omega
        simp only [ackLoop]
        rw [if_pos hd, hpop]
        cases herase : dictErase m mid with
        | nil =>
          exact ackLoop_no_match src mid rest [] [e.lock] hrest
        | cons kv rest' =>
          obtain ⟨k0, e0⟩ := kv
          exact ackLoop_no_match src mid rest ((k0, e0) :: rest')
            [e.lock, e0.lock] hrest
      · have hc' : matchingSends rest src ≤ 1 := by
          rw [matchingSends_send_no_match rest dest src hd] at hc
          exact hc
        have hh' : hasMatchingSend rest src = true := by
          simpa [hasMatchingSend, hd] using hh
        simp only [ackLoop]
        rw [if_neg hd]
        exact ih m e hlk hc' hh'

/-- Claim C9: `Connection.ack(source_id, message_id)` removes the entry
keyed by `message_id`, releases its slot signal and the new head's slot
signal, exactly when the id is present and the recorded send header's
destination session equals `source_id`; on every other input (unknown id,
or non-matching destination) `awaiting_ack` is left completely unchanged
and no lock is released.  The hypothesis reflects the source invariant
that a stored header carries at most one matching `send` action. -/
theorem c9_ack_exact (m : AwaitMap) (src : Nat) (mid : Bytes)
    (hcount : ∀ kv ∈ m, matchingSends kv.2.header src ≤ 1) :
    (∀ e, dictLookup m mid = some e → hasMatchingSend e.header src = true →
      ack m src mid =
        some (dictErase m mid, e.lock :: headLocks (dictErase m mid))) ∧
    (∀ e, dictLookup m mid = some e → hasMatchingSend e.header src = false →
      ack m src mid = some (m, [])) ∧
    (dictLookup m mid = none → ack m src mid = some (m, [])) := by
  refine ⟨?_, ?_, ?_⟩
  · intro e hlk hh
    have hc : matchingSends e.header src ≤ 1 := hcount (mid, e) (dictLookup_mem hlk)
    unfold ack
    rw [hlk]
    exact ackLoop_first_match src mid e.header m e hlk hc hh
  · intro e hlk hh
    have h0 := matchingSends_eq_zero e.header src hh
    unfold ack
    rw [hlk]
    exact ackLoop_no_match src mid e.header m [] h0
  · intro hlk
    unfold ack
    rw [hlk]
    rfl

/-- A two-entry awaiting-ack map for the C9 witness: the acked entry heads
the queue; the second entry becomes the new head. -/
def c9Map : AwaitMap :=
  [([1], { header := [.other, .send 5], bundle := none, lock := 10 }),
   ([2], { header := [.send 6], bundle := none, lock := 20 })]

/-- Witness for C9 at a concrete input: acking message id `[1]` from
session 5 pops the entry, releases its lock 10 and the new head's lock 20;
the statement also covers the non-matching and absent cases. -/
theorem c9_witness :
    (∀ kv ∈ c9Map, matchingSends kv.2.header 5 ≤ 1) ∧
    ((∀ e, dictLookup c9Map [1] = some e → hasMatchingSend e.header 5 = true →
        ack c9Map 5 [1] =
          some (dictErase c9Map [1], e.lock :: headLocks (dictErase c9Map [1]))) ∧
     (∀ e, dictLookup c9Map [1] = some e → hasMatchingSend e.header 5 = false →
        ack c9Map 5 [1] = some (c9Map, [])) ∧
     (dictLookup c9Map [1] = none → ack c9Map 5 [1] = some (c9Map, []))) :=
  ⟨by decide, c9_ack_exact c9Map 5 [1] (by decide)⟩

end Telekinesis
